import Mathlib

/-!
Verification development for the AI data-cleaning utility (`app.py`).

The program's local logic is string manipulation (Python `str.split`,
`str.strip`, `str.startswith`, `find`/`rfind`, slicing), a CSV round trip,
a handful of dataframe statistics, and session-state updates.  All of it is
embedded here over `List Char`, and the statistics over an explicit dataframe
model.  Remote-service calls (`client.chat.completions.create`), strict JSON
parsing (`json.loads`) and the CSV reader (`pd.read_csv`) are external
libraries; the first two are taken as function parameters of the embedded
pipelines, the CSV reader is modelled by an explicit rectangular CSV parser.
-/

namespace DataClean

/-- Characters of a string literal; the string representation used throughout. -/
def chars (s : String) : List Char := s.toList

/-- The backtick character. -/
def btick : Char := Char.ofNat 96

/-- The opening-brace character. -/
def lbrace : Char := Char.ofNat 123

/-- The closing-brace character. -/
def rbrace : Char := Char.ofNat 125

/-- Python `str.isspace`-style whitespace test used by `str.strip`. -/
def pyIsSpace (c : Char) : Bool :=
  c = ' ' || c = '\t' || c = '\n' || c = '\r' || c = '\x0B' || c = '\x0C'

/-- Python `s.lstrip()`. -/
def pyLStrip (s : List Char) : List Char := s.dropWhile pyIsSpace

/-- Python `s.strip()`: drop whitespace from both ends. -/
def pyStrip (s : List Char) : List Char :=
  ((pyLStrip s).reverse.dropWhile pyIsSpace).reverse

/-- Python `sep.join`-style interleaving of a separator between chunks. -/
def joinSep (sep : List Char) : List (List Char) → List Char
  | [] => []
  | [x] => x
  | x :: y :: xs => x ++ sep ++ joinSep sep (y :: xs)

/-- Fuel-driven worker for Python `s.split(sep)`: scan left to right for
non-overlapping occurrences of `sep`, cutting the string at each one.
The fuel argument only makes the recursion structural; any fuel at least
`s.length` computes the split. -/
def pySplitF (sep : List Char) : Nat → List Char → List (List Char)
  | _, [] => [[]]
  | 0, s => [s]
  | fuel+1, a :: rest =>
    if sep <+: a :: rest then
      [] :: pySplitF sep fuel (rest.drop (sep.length - 1))
    else
      (pySplitF sep fuel rest).modifyHead (fun x => a :: x)

/-- Python `s.split(sep)` for a non-empty separator. -/
def pySplit (sep s : List Char) : List (List Char) :=
  pySplitF sep s.length s

theorem pySplitF_fuel (sep : List Char) :
    ∀ f1 f2 s, s.length ≤ f1 → s.length ≤ f2 →
      pySplitF sep f1 s = pySplitF sep f2 s := by
  intro f1
  induction f1 with
  | zero =>
    intro f2 s h1 _
    have hs : s = [] := List.eq_nil_of_length_eq_zero (Nat.le_zero.mp h1)
    subst hs
    cases f2 <;> rfl
  | succ n ih =>
    intro f2 s h1 h2
    cases s with
    | nil => cases f2 <;> rfl
    | cons a rest =>
      cases f2 with
      | zero => exact absurd h2 (by simp)
      | succ m =>
        simp only [pySplitF]
        by_cases h : sep <+: a :: rest
        · simp only [if_pos h]
          have hlen : (rest.drop (sep.length - 1)).length ≤ rest.length := by
            simp [List.length_drop]
          have hrest1 : rest.length ≤ n := Nat.succ_le_succ_iff.mp (by simpa using h1)
          have hrest2 : rest.length ≤ m := Nat.succ_le_succ_iff.mp (by simpa using h2)
          rw [ih _ _ (le_trans hlen hrest1) (le_trans hlen hrest2)]
        · simp only [if_neg h]
          have hrest1 : rest.length ≤ n := Nat.succ_le_succ_iff.mp (by simpa using h1)
          have hrest2 : rest.length ≤ m := Nat.succ_le_succ_iff.mp (by simpa using h2)
          rw [ih _ _ hrest1 hrest2]

@[simp] theorem pySplit_nil (sep : List Char) : pySplit sep [] = [[]] := rfl

theorem pySplit_cons (sep : List Char) (a : Char) (rest : List Char) :
    pySplit sep (a :: rest) =
      if sep <+: a :: rest then
        [] :: pySplit sep (rest.drop (sep.length - 1))
      else
        (pySplit sep rest).modifyHead (fun x => a :: x) := by
  show pySplitF sep (rest.length + 1) (a :: rest) = _
  simp only [pySplitF]
  by_cases h : sep <+: a :: rest
  · simp only [if_pos h]
    rw [pySplitF_fuel sep rest.length (rest.drop (sep.length - 1)).length]
    · rfl
    · simp [List.length_drop]
    · exact le_refl _
  · simp only [if_neg h]
    rfl

/-- Text strictly before the first occurrence of `sep` (the whole string if
`sep` does not occur).  This is the specification-level reading of "the text
up to the next fence". -/
def beforeFirstOcc (sep : List Char) : List Char → List Char
  | [] => []
  | a :: rest => if sep <+: a :: rest then [] else a :: beforeFirstOcc sep rest

/-- Text strictly after the first occurrence of `sep`, or `none` when `sep`
does not occur. -/
def afterFirstOcc (sep : List Char) : List Char → Option (List Char)
  | [] => none
  | a :: rest =>
    if sep <+: a :: rest then some (rest.drop (sep.length - 1))
    else afterFirstOcc sep rest

/-- Python `s.find(c)` for a single character, as an optional index. -/
def pyFind (c : Char) : List Char → Option Nat
  | [] => none
  | a :: rest => if a = c then some 0 else (pyFind c rest).map (· + 1)

/-- Python `s.rfind(c)` for a single character, as an optional index. -/
def pyRFind (c : Char) (s : List Char) : Option Nat :=
  (pyFind c s.reverse).map (fun k => s.length - 1 - k)

/-- Python slice `s[i:j]` (for `0 ≤ i ≤ j` within range). -/
def pySlice (i j : Nat) (s : List Char) : List Char :=
  (s.drop i).take (j - i)

section SplitLemmas

variable {sep s : List Char}

theorem pySplitF_ne_nil (sep : List Char) : ∀ f s, pySplitF sep f s ≠ [] := by
  intro f
  induction f with
  | zero => intro s; cases s <;> simp [pySplitF]
  | succ n ih =>
    intro s
    cases s with
    | nil => simp [pySplitF]
    | cons a rest =>
      simp only [pySplitF]
      by_cases h : sep <+: a :: rest
      · simp [h]
      · simp only [if_neg h]
        intro hcon
        have := ih rest
        cases hh : pySplitF sep n rest with
        | nil => exact this hh
        | cons x xs => rw [hh] at hcon; simp [List.modifyHead] at hcon

theorem pySplit_ne_nil (sep s : List Char) : pySplit sep s ≠ [] :=
  pySplitF_ne_nil sep s.length s

/-- When `sep` does not occur in `s`, Python split returns the whole string. -/
theorem pySplit_no_occurrence (h : ¬ sep <:+: s) : pySplit sep s = [s] := by
  induction s with
  | nil => simp
  | cons a rest ih =>
    rw [pySplit_cons]
    have hp : ¬ sep <+: a :: rest := fun hc => h hc.isInfix
    rw [if_neg hp]
    have hrest : ¬ sep <:+: rest := fun hc => h (List.infix_cons_iff.mpr (Or.inr hc))
    rw [ih hrest]
    rfl

/-- When `sep` occurs in `s`, Python split cuts at the first occurrence:
the head chunk is the text before it, the other chunks split the text after. -/
theorem pySplit_first_occurrence (hne : sep ≠ []) (h : sep <:+: s) :
    pySplit sep s =
      beforeFirstOcc sep s :: pySplit sep ((afterFirstOcc sep s).getD []) := by
  induction s with
  | nil =>
    exact absurd (List.eq_nil_of_infix_nil h) hne
  | cons a rest ih =>
    rw [pySplit_cons]
    by_cases hp : sep <+: a :: rest
    · rw [if_pos hp]
      simp only [beforeFirstOcc, afterFirstOcc, if_pos hp]
      rfl
    · rw [if_neg hp]
      have hrest : sep <:+: rest := by
        rcases List.infix_cons_iff.mp h with hc | hc
        · exact absurd hc hp
        · exact hc
      rw [ih hrest]
      simp only [beforeFirstOcc, afterFirstOcc, if_neg hp, List.modifyHead]

/-- The head chunk of a Python split is always the text before the first
occurrence of the separator. -/
theorem pySplit_headD (sep s : List Char) :
    (pySplit sep s).headD [] = beforeFirstOcc sep s := by
  induction s with
  | nil => simp [beforeFirstOcc]
  | cons a rest ih =>
    rw [pySplit_cons]
    by_cases hp : sep <+: a :: rest
    · rw [if_pos hp]; simp [beforeFirstOcc, hp]
    · rw [if_neg hp]
      simp only [beforeFirstOcc, if_neg hp]
      cases hh : pySplit sep rest with
      | nil => exact absurd hh (pySplit_ne_nil sep rest)
      | cons x xs =>
        rw [hh] at ih
        simp [List.modifyHead, ← ih]

/-- The text before the first occurrence is unchanged when the separator does
not occur at all. -/
theorem beforeFirstOcc_no_occurrence (h : ¬ sep <:+: s) : beforeFirstOcc sep s = s := by
  induction s with
  | nil => rfl
  | cons a rest ih =>
    have hp : ¬ sep <+: a :: rest := fun hc => h hc.isInfix
    have hrest : ¬ sep <:+: rest := fun hc => h (List.infix_cons_iff.mpr (Or.inr hc))
    simp [beforeFirstOcc, hp, ih hrest]

/-- The text before the first occurrence is a prefix of the string. -/
theorem beforeFirstOcc_leading (sep s : List Char) : beforeFirstOcc sep s <+: s := by
  induction s with
  | nil => simp [beforeFirstOcc]
  | cons a rest ih =>
    by_cases hp : sep <+: a :: rest
    · simp [beforeFirstOcc, hp]
    · simp only [beforeFirstOcc, if_neg hp]
      exact List.cons_prefix_cons.mpr ⟨rfl, ih⟩

/-- The separator never occurs in the text before its first occurrence. -/
theorem not_infix_beforeFirstOcc (hne : sep ≠ []) (s : List Char) :
    ¬ sep <:+: beforeFirstOcc sep s := by
  induction s with
  | nil =>
    simp only [beforeFirstOcc]
    intro hc
    exact hne (List.eq_nil_of_infix_nil hc)
  | cons a rest ih =>
    by_cases hp : sep <+: a :: rest
    · simp only [beforeFirstOcc, if_pos hp]
      intro hc
      exact hne (List.eq_nil_of_infix_nil hc)
    · simp only [beforeFirstOcc, if_neg hp]
      intro hc
      rcases List.infix_cons_iff.mp hc with hc2 | hc2
      · exact hp (hc2.trans (List.cons_prefix_cons.mpr ⟨rfl, beforeFirstOcc_leading sep rest⟩))
      · exact ih hc2

end SplitLemmas

section CleanRegionLemmas

/-- Occurrence of a pattern headed by `c` is unaffected by a region free of `c`. -/
theorem infix_append_of_head_not_mem {c : Char} {sp xs t : List Char} (h : c ∉ xs) :
    (c :: sp) <:+: (xs ++ t) ↔ (c :: sp) <:+: t := by
  induction xs with
  | nil => simp
  | cons a rest ih =>
    have ha : a ≠ c := fun hc => h (hc ▸ List.mem_cons_self a rest)
    have hrest : c ∉ rest := fun hc => h (List.mem_cons_of_mem a hc)
    constructor
    · intro hc
      rcases List.infix_cons_iff.mp hc with hp | hi
      · rcases List.cons_prefix_cons.mp hp with ⟨hEq, _⟩
        exact absurd hEq.symm ha
      · exact (ih hrest).mp hi
    · intro hc
      have : (c :: sp) <:+: (rest ++ t) := (ih hrest).mpr hc
      exact List.infix_cons_iff.mpr (Or.inr this)

/-- A pattern occurs in a string extended on the right by the pattern itself. -/
theorem infix_append_self (sep xs ys : List Char) : sep <:+: (xs ++ sep ++ ys) :=
  ⟨xs, ys, rfl⟩

/-- At a position where the pattern is a prefix, the text before the first
occurrence is empty. -/
theorem beforeFirstOcc_at_match {sep s : List Char} (hne : sep ≠ []) (h : sep <+: s) :
    beforeFirstOcc sep s = [] := by
  cases s with
  | nil => exact absurd (List.prefix_nil.mp h) hne
  | cons a rest => simp [beforeFirstOcc, h]

/-- At a position where the pattern is a prefix, the text after the first
occurrence is the remainder past the pattern. -/
theorem afterFirstOcc_at_match {sep s : List Char} (hne : sep ≠ []) (h : sep <+: s) :
    afterFirstOcc sep s = some (s.drop sep.length) := by
  cases s with
  | nil => exact absurd (List.prefix_nil.mp h) hne
  | cons a rest =>
    simp only [afterFirstOcc, if_pos h]
    cases hsep : sep with
    | nil => exact absurd hsep hne
    | cons c sp => simp

/-- The text before the first occurrence of the pattern, in a string whose
region before an explicit occurrence is free of the pattern's head character. -/
theorem beforeFirstOcc_append {c : Char} {sp xs ys : List Char} (h : c ∉ xs) :
    beforeFirstOcc (c :: sp) (xs ++ (c :: sp) ++ ys) = xs := by
  induction xs with
  | nil =>
    simp only [List.nil_append]
    exact beforeFirstOcc_at_match (by simp) (List.prefix_append (c :: sp) ys)
  | cons a rest ih =>
    have ha : a ≠ c := fun hc => h (hc ▸ List.mem_cons_self a rest)
    have hrest : c ∉ rest := fun hc => h (List.mem_cons_of_mem a hc)
    have hp : ¬ (c :: sp) <+: (a :: (rest ++ c :: (sp ++ ys))) := by
      intro hc
      rcases List.cons_prefix_cons.mp hc with ⟨hEq, _⟩
      exact ha hEq.symm
    simp only [List.cons_append, List.append_assoc] at ih ⊢
    rw [beforeFirstOcc, if_neg hp, ih hrest]

/-- The text after the first occurrence, under the same cleanliness condition. -/
theorem afterFirstOcc_append {c : Char} {sp xs ys : List Char} (h : c ∉ xs) :
    afterFirstOcc (c :: sp) (xs ++ (c :: sp) ++ ys) = some ys := by
  induction xs with
  | nil =>
    simp only [List.nil_append]
    rw [afterFirstOcc_at_match (by simp) (List.prefix_append (c :: sp) ys)]
    rw [List.drop_left]
  | cons a rest ih =>
    have ha : a ≠ c := fun hc => h (hc ▸ List.mem_cons_self a rest)
    have hrest : c ∉ rest := fun hc => h (List.mem_cons_of_mem a hc)
    have hp : ¬ (c :: sp) <+: (a :: (rest ++ c :: (sp ++ ys))) := by
      intro hc
      rcases List.cons_prefix_cons.mp hc with ⟨hEq, _⟩
      exact ha hEq.symm
    simp only [List.cons_append, List.append_assoc] at ih ⊢
    rw [afterFirstOcc, if_neg hp, ih hrest]

/-- Python split of a string made of a clean region, an occurrence of the
separator, and a remainder: the clean region is the first chunk. -/
theorem pySplit_append {c : Char} {sp xs ys : List Char} (h : c ∉ xs) :
    pySplit (c :: sp) (xs ++ (c :: sp) ++ ys) = xs :: pySplit (c :: sp) ys := by
  rw [pySplit_first_occurrence (by simp) (infix_append_self (c :: sp) xs ys)]
  rw [beforeFirstOcc_append h, afterFirstOcc_append h]
  rfl

end CleanRegionLemmas

section JoinLemmas

theorem joinSep_append (sep : List Char) :
    ∀ (L1 L2 : List (List Char)), L1 ≠ [] → L2 ≠ [] →
      joinSep sep (L1 ++ L2) = joinSep sep L1 ++ sep ++ joinSep sep L2 := by
  intro L1
  induction L1 with
  | nil => intro L2 h1 _; exact absurd rfl h1
  | cons x rest ih =>
    intro L2 _ h2
    cases rest with
    | nil =>
      cases L2 with
      | nil => exact absurd rfl h2
      | cons y ys => simp [joinSep]
    | cons z zs =>
      have ihz := ih L2 (by simp) h2
      calc joinSep sep (x :: z :: zs ++ L2)
          = x ++ sep ++ joinSep sep ((z :: zs) ++ L2) := by
            simp [joinSep, List.cons_append]
        _ = x ++ sep ++ (joinSep sep (z :: zs) ++ sep ++ joinSep sep L2) := by rw [ihz]
        _ = joinSep sep (x :: z :: zs) ++ sep ++ joinSep sep L2 := by
            simp [joinSep, List.append_assoc]

theorem not_mem_joinSep {c : Char} {sep : List Char} (hsep : c ∉ sep) :
    ∀ {L : List (List Char)}, (∀ l ∈ L, c ∉ l) → c ∉ joinSep sep L := by
  intro L
  induction L with
  | nil => intro _; simp [joinSep]
  | cons x rest ih =>
    intro h
    cases rest with
    | nil => simpa [joinSep] using h x (by simp)
    | cons y ys =>
      simp only [joinSep, List.append_assoc, List.mem_append]
      intro hc
      rcases hc with hc | hc | hc
      · exact h x (by simp) hc
      · exact hsep hc
      · exact ih (fun l hl => h l (List.mem_cons_of_mem x hl)) hc

/-- Splitting on a single character is inverse to joining with it, provided no
chunk contains the character. -/
theorem pySplit_joinSep {c : Char} :
    ∀ {L : List (List Char)}, L ≠ [] → (∀ l ∈ L, c ∉ l) →
      pySplit [c] (joinSep [c] L) = L := by
  intro L
  induction L with
  | nil => intro h _; exact absurd rfl h
  | cons x rest ih =>
    intro _ h
    cases rest with
    | nil =>
      simp only [joinSep]
      rw [pySplit_no_occurrence]
      intro hc
      rcases hc with ⟨pre, post, hEq⟩
      exact h x (by simp) (by rw [← hEq]; simp)
    | cons y ys =>
      have hx : c ∉ x := h x (by simp)
      have hrest : ∀ l ∈ y :: ys, c ∉ l := fun l hl => h l (List.mem_cons_of_mem x hl)
      have hjoin : joinSep [c] (x :: y :: ys) = x ++ [c] ++ joinSep [c] (y :: ys) := by
        simp [joinSep]
      rw [hjoin, pySplit_append hx, ih (by simp) hrest]

end JoinLemmas

section StripLemmas

/-- Both visible ends of a chunk are non-whitespace (trivially true of `[]`). -/
def goodEnds (l : List Char) : Prop :=
  pyIsSpace (l.headD ',') = false ∧ pyIsSpace (l.getLastD ',') = false

theorem pyLStrip_eq_self {l : List Char} (h : pyIsSpace (l.headD ',') = false) :
    pyLStrip l = l := by
  cases l with
  | nil => rfl
  | cons a rest =>
    simp only [List.headD_cons] at h
    simp [pyLStrip, List.dropWhile_cons, h]

theorem pyStrip_eq_self {l : List Char} (h : goodEnds l) : pyStrip l = l := by
  rcases h with ⟨h1, h2⟩
  unfold pyStrip
  rw [pyLStrip_eq_self h1]
  have hrev : pyIsSpace (l.reverse.headD ',') = false := by
    cases l with
    | nil => simpa using h2
    | cons a rest =>
      rw [List.headD_eq_head?, List.head?_reverse]
      rwa [List.getLastD_eq_getLast?] at h2
  have : l.reverse.dropWhile pyIsSpace = l.reverse := by
    cases hrv : l.reverse with
    | nil => rfl
    | cons b bs =>
      rw [hrv] at hrev
      simp only [List.headD_cons] at hrev
      simp [List.dropWhile_cons, hrev]
  rw [this, List.reverse_reverse]

/-- Stripping one leading and one trailing whitespace character around a chunk
with non-whitespace ends recovers the chunk. -/
theorem pyStrip_pad {c1 c2 : Char} {l : List Char} (hc1 : pyIsSpace c1 = true)
    (hc2 : pyIsSpace c2 = true) (hl : l ≠ []) (h : goodEnds l) :
    pyStrip (c1 :: l ++ [c2]) = l := by
  rcases h with ⟨h1, h2⟩
  unfold pyStrip
  have hlstrip : pyLStrip (c1 :: l ++ [c2]) = l ++ [c2] := by
    unfold pyLStrip
    rw [List.cons_append, List.dropWhile_cons, if_pos hc1]
    cases l with
    | nil => exact absurd rfl hl
    | cons a rest =>
      simp only [List.headD_cons] at h1
      simp [List.dropWhile_cons, h1]
  rw [hlstrip]
  rw [List.reverse_append]
  simp only [List.reverse_cons, List.reverse_nil, List.nil_append, List.singleton_append]
  rw [List.dropWhile_cons, if_pos hc2]
  have hrev : l.reverse.dropWhile pyIsSpace = l.reverse := by
    have hrevhead : pyIsSpace (l.reverse.headD ',') = false := by
      rw [List.headD_eq_head?, List.head?_reverse]
      rwa [List.getLastD_eq_getLast?] at h2
    cases hrv : l.reverse with
    | nil => rfl
    | cons b bs =>
      rw [hrv] at hrevhead
      simp only [List.headD_cons] at hrevhead
      simp [List.dropWhile_cons, hrevhead]
  rw [hrev, List.reverse_reverse]

/-- The stripped string sits inside the original: `s = w1 ++ pyStrip s ++ w2`. -/
theorem pyStrip_decomposition (s : List Char) : ∃ w1 w2, s = w1 ++ pyStrip s ++ w2 := by
  refine ⟨s.takeWhile pyIsSpace, ((pyLStrip s).reverse.takeWhile pyIsSpace).reverse, ?_⟩
  unfold pyStrip
  have h1 : s = s.takeWhile pyIsSpace ++ pyLStrip s := (List.takeWhile_append_dropWhile ..).symm
  have h2 : (pyLStrip s).reverse =
      (pyLStrip s).reverse.takeWhile pyIsSpace ++ (pyLStrip s).reverse.dropWhile pyIsSpace :=
    (List.takeWhile_append_dropWhile ..).symm
  have h3 : pyLStrip s =
      ((pyLStrip s).reverse.dropWhile pyIsSpace).reverse ++
        ((pyLStrip s).reverse.takeWhile pyIsSpace).reverse := by
    have := congrArg List.reverse h2
    rwa [List.reverse_reverse, List.reverse_append] at this
  conv_lhs => rw [h1, h3]
  rw [List.append_assoc]

end StripLemmas

section FindLemmas

theorem pyFind_eq_some {c : Char} :
    ∀ {s : List Char} {i : Nat}, pyFind c s = some i → i < s.length ∧ s[i]? = some c := by
  intro s
  induction s with
  | nil => intro i h; simp [pyFind] at h
  | cons a rest ih =>
    intro i h
    simp only [pyFind] at h
    by_cases ha : a = c
    · rw [if_pos ha] at h
      cases h
      subst ha
      simp
    · rw [if_neg ha] at h
      cases hr : pyFind c rest with
      | none => rw [hr] at h; simp at h
      | some k =>
        rw [hr] at h
        simp only [Option.map_some'] at h
        cases h
        rcases ih hr with ⟨hlt, hget⟩
        exact ⟨Nat.succ_lt_succ hlt, by simpa using hget⟩

theorem pyRFind_eq_some {c : Char} {s : List Char} {j : Nat} (h : pyRFind c s = some j) :
    s[j]? = some c := by
  unfold pyRFind at h
  cases hr : pyFind c s.reverse with
  | none => rw [hr] at h; simp at h
  | some k =>
    rw [hr] at h
    simp only [Option.map_some'] at h
    cases h
    rcases pyFind_eq_some hr with ⟨hlt, hget⟩
    rw [List.length_reverse] at hlt
    rw [List.getElem?_reverse hlt] at hget
    exact hget

/-- Splitting a list at a position known to hold a given element. -/
theorem eq_take_cons_drop {α : Type} :
    ∀ {l : List α} {i : Nat} {a : α}, l[i]? = some a →
      l = l.take i ++ a :: l.drop (i + 1) := by
  intro l
  induction l with
  | nil => intro i a h; simp at h
  | cons x xs ih =>
    intro i a h
    cases i with
    | zero =>
      simp only [List.getElem?_cons_zero, Option.some.injEq] at h
      subst h
      simp
    | succ n =>
      simp only [List.getElem?_cons_succ] at h
      have := ih h
      calc x :: xs = x :: (xs.take n ++ a :: xs.drop (n + 1)) := by rw [← this]
        _ = (x :: xs).take (n + 1) ++ a :: (x :: xs).drop (n + 2) := by simp

end FindLemmas

/-! ### Embedded program definitions (from `app.py`) -/

/-- The generic markdown fence marker. -/
def fence3 : List Char := chars "```"

/-- The JSON-labelled fence marker. -/
def fenceJson : List Char := chars "```json"

/-- The CSV-labelled fence marker. -/
def fenceCsv : List Char := chars "```csv"

/-- Table model: named columns and rows of textual cells, the shape in which
CSV text is produced (`df.to_csv`) and parsed back (`pd.read_csv`). -/
structure Table where
  cols : List (List Char)
  rows : List (List (List Char))
deriving DecidableEq

/-- One CSV line: fields joined by commas. -/
def csvLine (r : List (List Char)) : List Char := joinSep [','] r

/-- CSV serialization of a table without a trailing newline. -/
def csvOfTable (t : Table) : List Char :=
  joinSep ['\n'] (csvLine t.cols :: t.rows.map csvLine)

/-- `df.to_csv(index=False)`: header line, row lines, trailing newline. -/
def toCsvPandas (t : Table) : List Char := csvOfTable t ++ ['\n']

/-- Model of `pd.read_csv` on comma/newline CSV text: split into lines, skip
blank lines (pandas' `skip_blank_lines` default), and take the first line as
the header.  When every data row carries exactly one field more than the
header, the leading field of each row is consumed as the row index (pandas'
documented index-column inference); otherwise the rows must be exact-width —
a longer ragged row later in the file makes pandas raise `ParserError`, and
the model returns `none`.  (Rows shorter than the header, which pandas pads
with missing values, do not occur in the theorems below.)  Empty input is
rejected (`EmptyDataError`). -/
def parseCsv (s : List Char) : Option Table :=
  if s = [] then none
  else
    match (pySplit ['\n'] s).filter (fun l => !l.isEmpty) with
    | [] => none
    | header :: rest =>
      let cols := pySplit [','] header
      let rows := rest.map (fun l => pySplit [','] l)
      if rows.all (fun r => r.length == cols.length) then some ⟨cols, rows⟩
      else if rows.all (fun r => r.length == cols.length + 1) then
        some ⟨cols, rows.map (fun r => r.drop 1)⟩
      else none

/-- The fence-stripping step of `clean_data` (`app.py` lines 146–153): a
CSV-labelled block is cut out with two splits; otherwise, when a generic
fence is present, every line whose stripped content starts with a fence is
removed; finally surrounding whitespace is stripped. -/
def stripCleanFences (resp : List Char) : List Char :=
  let cleaned :=
    if fenceCsv <:+: resp then
      (pySplit fence3 ((pySplit fenceCsv resp).getD 1 [])).getD 0 []
    else if fence3 <:+: resp then
      joinSep ['\n'] ((pySplit ['\n'] resp).filter (fun l => !(decide (fence3 <+: pyStrip l))))
    else resp
  pyStrip cleaned

/-- The fence-extraction step of the JSON parsing in `analyze_data`
(`app.py` lines 88–92). -/
def fenceChooseA (s : List Char) : List Char :=
  if fenceJson <:+: s then
    (pySplit fence3 ((pySplit fenceJson s).getD 1 [])).getD 0 []
  else if fence3 <:+: s then
    (pySplit fence3 ((pySplit fence3 s).getD 1 [])).getD 0 []
  else s

/-- JSON parsing of the analysis reply (`app.py` lines 86–107), parameterised
by the strict JSON parser `jl` (`json.loads`; `none` models a raised
`JSONDecodeError`).  After fence extraction and stripping, strict parsing is
attempted; on failure the substring from the first `{` to the last `}` is
parsed; when no such pair exists a parse error is reported.  A failure of the
fallback parse itself escapes to the outer handler (`Analysis error`).
Returns the parsed value (or `none`) with the emitted user-visible messages. -/
def parseAnalysisResponse {J : Type} (jl : List Char → Option J) (s : List Char) :
    Option J × List String :=
  let t := pyStrip (fenceChooseA s)
  match jl t with
  | some a => (some a, [])
  | none =>
    match pyFind lbrace t, pyRFind rbrace t with
    | some start, some j =>
      if start ≤ j then
        match jl (pySlice start (j + 1) t) with
        | some a => (some a, [])
        | none => (none, ["Analysis error"])
      else (none, ["Could not parse AI response. Please try again."])
    | some _, none => (none, ["Could not parse AI response. Please try again."])
    | none, _ => (none, ["Could not parse AI response. Please try again."])

/-- The fixed text preceding the CSV sample in the analysis prompt
(`app.py` lines 68–77). -/
def analysisPromptHead : List Char :=
  chars "Analyze this CSV data sample and provide data cleaning recommendations. \nReturn ONLY a valid JSON object with this exact structure (no markdown, no explanations):\n\x7b\n  \"issues\": [\"list of specific issues found\"],\n  \"recommendations\": [\"list of cleaning steps to take\"],\n  \"summary\": \"brief summary of data quality\",\n  \"severity\": \"high/medium/low\"\n\x7d\n\nCSV Data Sample:\n"

/-- The analysis prompt: fixed instruction text followed by the CSV sample. -/
def analysisPrompt (csv : List Char) : List Char := analysisPromptHead ++ csv

/-- The fixed text between the issue list and the CSV data in the cleaning
prompt (`app.py` lines 125–138). -/
def cleanPromptMid : List Char :=
  chars "\n\nApply these fixes intelligently:\n1. Remove duplicate rows\n2. Handle missing values (median for numbers, mode for categories, or remove if >50% missing)\n3. Standardize formats (dates, text case, numbers)\n4. Remove extra whitespace and special characters where inappropriate\n5. Fix obvious data entry errors\n6. Ensure consistent data types per column\n\nIMPORTANT: Return ONLY the cleaned CSV data with headers. No explanations, no markdown formatting, just the raw CSV.\n\nOriginal CSV Data:\n"

/-- The cleaning prompt: instruction text around the joined issue list and the
full CSV serialization. -/
def cleanPrompt (issues : List (List Char)) (csv : List Char) : List Char :=
  chars "Clean this CSV data based on these issues: " ++ joinSep (chars ", ") issues ++
    cleanPromptMid ++ csv

/-- `get_client` (`app.py` lines 39–51): with no `GROQ_API_KEY` in the
environment (or an empty one; both are falsy in Python) no client is built and
an error message plus an info message are shown. -/
def getClient (env : Option String) : Option Unit × List String :=
  match env with
  | none =>
    (none, ["⚠️ GROQ_API_KEY not found. Please set it as an environment variable.",
            "Get your free API key from: https://console.groq.com"])
  | some k =>
    if k = "" then
      (none, ["⚠️ GROQ_API_KEY not found. Please set it as an environment variable.",
              "Get your free API key from: https://console.groq.com"])
    else (some (), [])

/-- `analyze_data` (`app.py` lines 55–111): return `None` at once when there
is no client; otherwise serialize the sample, make one remote call (`remote`;
`none` models a raised exception, reported as `Analysis error`) and parse the
reply.  Returns the result, the number of remote calls made, and the emitted
messages. -/
def analyzeData {J : Type} (jl : List Char → Option J)
    (remote : List Char → Option (List Char)) (client : Option Unit) (sample : Table) :
    Option J × Nat × List String :=
  match client with
  | none => (none, 0, [])
  | some _ =>
    match remote (analysisPrompt (toCsvPandas sample)) with
    | none => (none, 1, ["Analysis error"])
    | some resp =>
      let out := parseAnalysisResponse jl resp
      (out.1, 1, out.2)

/-- `clean_data` (`app.py` lines 113–157): return `None` at once when there is
no client; otherwise serialize the whole table, make one remote call and strip
fences from the reply. -/
def cleanData (remote : List Char → Option (List Char)) (client : Option Unit)
    (df : Table) (issues : List (List Char)) : Option (List Char) × Nat × List String :=
  match client with
  | none => (none, 0, [])
  | some _ =>
    match remote (cleanPrompt issues (toCsvPandas df)) with
    | none => (none, 1, ["Cleaning error"])
    | some resp => (some (stripCleanFences resp), 1, [])

/-- `df.head(n)`: the first `n` rows, all columns. -/
def dfHead (n : Nat) (t : Table) : Table := ⟨t.cols, t.rows.take n⟩

/-- The prompt produced by the `Analyze Data Quality` button handler
(`app.py` lines 307–310): `analyze_data` applied to `df.head(100)`. -/
def analyzeButtonPrompt (t : Table) : List Char :=
  analysisPrompt (toCsvPandas (dfHead 100 t))

/-- Dataframe model for the statistics claims: named columns and rows of
nullable cells of an arbitrary cell type. -/
structure DFrame (α : Type) where
  cols : List (List Char)
  rows : List (List (Option α))

/-- All rows have exactly one cell per column (true of every loaded table). -/
def rectangular {α : Type} (t : DFrame α) : Prop :=
  ∀ r ∈ t.rows, r.length = t.cols.length

instance {α : Type} (t : DFrame α) : Decidable (rectangular t) := by
  unfold rectangular
  infer_instance

/-- `df.isnull().sum().sum()` (`app.py` line 245): per-column null counts,
summed over the columns. -/
def missingTotal {α : Type} [DecidableEq α] (t : DFrame α) : Nat :=
  ∑ j ∈ Finset.range t.cols.length,
    t.rows.countP (fun r => decide (r[j]? = some (none : Option α)))

/-- Total number of null cells counted row by row (the specification's
reading of "total null cells"). -/
def flatNullCount {α : Type} (t : DFrame α) : Nat :=
  (t.rows.map (fun r => r.countP (fun x => x.isNone))).sum

/-- `missing_pct` (`app.py` line 246). -/
def missing_pct {α : Type} [DecidableEq α] (t : DFrame α) : ℚ :=
  (missingTotal t : ℚ) / ((t.rows.length : ℚ) * (t.cols.length : ℚ)) * 100

/-- The percentage the specification describes: total null cells divided by
rows times columns. -/
def specMissingPct {α : Type} (t : DFrame α) : ℚ :=
  (flatNullCount t : ℚ) / ((t.rows.length : ℚ) * (t.cols.length : ℚ)) * 100

/-- Display to one decimal place (the `:.1f` format), modelled as rounding to
tenths. -/
def roundTo1 (q : ℚ) : ℚ := (round (q * 10) : ℤ) / 10

/-- Worker for `df.duplicated()` with pandas' default `keep='first'`: a row is
flagged when an equal row was seen before it. -/
def dupFlags {α : Type} [DecidableEq α] (seen : List (List (Option α))) :
    List (List (Option α)) → List Bool
  | [] => []
  | r :: rs => decide (r ∈ seen) :: dupFlags (r :: seen) rs

/-- `df.duplicated().sum()` (`app.py` line 249). -/
def duplicatedSum {α : Type} [DecidableEq α] (t : DFrame α) : Nat :=
  (dupFlags [] t.rows).count true

/-- The summary-metrics block (`app.py` lines 239–250): row count, column
count, total missing values, missing percentage, duplicate count.  The block
takes the client only to show that it never consults it. -/
def metricsView {α : Type} [DecidableEq α] (client : Option Unit) (t : DFrame α) :
    Nat × Nat × Nat × ℚ × Nat :=
  match client with
  | _ => (t.rows.length, t.cols.length, missingTotal t, missing_pct t, duplicatedSum t)

/-- Missing-value counts per column, the data behind the missing-values chart
of `create_data_quality_viz` (`app.py` lines 162–164); like the metrics block,
it never consults the client. -/
def vizMissingByColumn {α : Type} [DecidableEq α] (client : Option Unit) (t : DFrame α) :
    List Nat :=
  match client with
  | _ =>
    (List.range t.cols.length).map
      (fun j => t.rows.countP (fun r => decide (r[j]? = some (none : Option α))))

/-- Minimal JSON value model for the parsed analysis object: strings, integers
and arrays, enough to distinguish iterable from non-iterable values and
hashable from unhashable ones. -/
inductive JVal
  | str (s : String)
  | num (n : Int)
  | arr (xs : List String)
deriving DecidableEq

/-- Python `analysis[key]`: direct indexing raises `KeyError` when the key is
absent. -/
def pyGetItem (a : List (String × JVal)) (k : String) : Except String JVal :=
  match a.lookup k with
  | none => .error ("KeyError: " ++ k)
  | some v => .ok v

/-- Python iteration over a value: strings iterate over their characters,
lists over their elements, numbers raise `TypeError`. -/
def pyIterate : JVal → Except String (List JVal)
  | .str s => .ok (s.toList.map (fun c => JVal.str (String.mk [c])))
  | .arr xs => .ok (xs.map JVal.str)
  | .num _ => .error "TypeError: not iterable"

/-- Whether a value may be used as a dictionary key (lists are unhashable). -/
def hashable : JVal → Bool
  | .arr _ => false
  | _ => true

/-- The analysis display block (`app.py` lines 315–338), modelled for its
raising behaviour: `severity` is read with `.get(..., 'medium')` and used as a
dictionary key in `severity_color.get`, while `summary`, `issues` and
`recommendations` are read by direct indexing, the latter two then being
iterated. -/
def displayAnalysis (a : List (String × JVal)) : Except String Unit :=
  let severity := (a.lookup "severity").getD (JVal.str "medium")
  if hashable severity then
    match pyGetItem a "summary" with
    | .error e => .error e
    | .ok _ =>
      match pyGetItem a "issues" with
      | .error e => .error e
      | .ok iss =>
        match pyIterate iss with
        | .error e => .error e
        | .ok _ =>
          match pyGetItem a "recommendations" with
          | .error e => .error e
          | .ok recs =>
            match pyIterate recs with
            | .error e => .error e
            | .ok _ => .ok ()
  else .error "TypeError: unhashable type: list"

/-- Session state around the cleaning step: the loaded table, the stored
analysis, the stored cleaned CSV text, and the stored cleaned table. -/
structure AppState (A : Type) where
  df : Table
  analysis : Option A
  cleaned_data : Option (List Char)
  cleaned_df : Option Table
deriving DecidableEq

/-- The `Clean Data Now` handler body (`app.py` lines 342–354), applied to the
text returned by `clean_data` (`none` when `clean_data` returned `None`): a
truthy text is stored into `cleaned_data` first, then parsed with `readCsv`
(standing for `pd.read_csv`); on success the parsed table is stored into
`cleaned_df`, on failure an error message is shown.  A falsy (empty) text is
ignored entirely. -/
def cleanHandler {A : Type} (readCsv : List Char → Option Table)
    (resp : Option (List Char)) (st : AppState A) : AppState A × List String :=
  match resp with
  | none => (st, [])
  | some txt =>
    if txt = [] then (st, [])
    else
      match readCsv txt with
      | some tdf =>
        ({ st with cleaned_data := some txt, cleaned_df := some tdf },
         ["✅ Data cleaned successfully!"])
      | none =>
        ({ st with cleaned_data := some txt }, ["Error parsing cleaned data"])

/-! ### Claim theorems -/

/-- C8: for every loaded table with `N` rows, the analysis request serializes
exactly the first `min 100 N` rows of the table — a prefix, never more rows
and never rows from elsewhere — as CSV text without the index into the
natural-language prompt. -/
theorem analyze_prompt_first_100_rows (t : Table) :
    analyzeButtonPrompt t =
        analysisPromptHead ++ toCsvPandas ⟨t.cols, t.rows.take 100⟩ ∧
      (t.rows.take 100).length = min 100 t.rows.length ∧
      t.rows.take 100 <+: t.rows :=
  ⟨rfl, List.length_take 100 t.rows, List.take_prefix 100 t.rows⟩

/-- C9: with the service credential absent, no client is built and a warning
about the missing key is shown; `analyze_data` and `clean_data` both return
`None` without making any remote call and without further messages; the
summary metrics and the visualization data are computed identically with or
without a client. -/
theorem missing_key_degrades_gracefully :
    (getClient none).1 = none ∧
      "⚠️ GROQ_API_KEY not found. Please set it as an environment variable." ∈
        (getClient none).2 ∧
      (∀ (J : Type) (jl : List Char → Option J) (remote : List Char → Option (List Char))
          (sample : Table), analyzeData jl remote none sample = (none, 0, [])) ∧
      (∀ (remote : List Char → Option (List Char)) (df : Table) (issues : List (List Char)),
        cleanData remote none df issues = (none, 0, [])) ∧
      (∀ (α : Type) (inst : DecidableEq α) (c1 c2 : Option Unit) (df : DFrame α),
        @metricsView α inst c1 df = @metricsView α inst c2 df ∧
          @vizMissingByColumn α inst c1 df = @vizMissingByColumn α inst c2 df) := by
  refine ⟨rfl, by simp [getClient], fun J jl remote sample => rfl,
    fun remote df issues => rfl, fun α inst c1 c2 df => ?_⟩
  cases c1 <;> cases c2 <;> exact ⟨rfl, rfl⟩

/-- C1 counterexample: a cleaning response text that fails to parse as CSV
(its second data row has one more field than the first, on which `pd.read_csv`
raises `ParserError` and the model `parseCsv` agrees) does not leave the
previously stored cleaned CSV text untouched: `cleaned_data` is overwritten
with the new unparsable text before the parse is attempted. -/
theorem clean_failure_cex :
    parseCsv (chars "a,b\n1,2\n3,4,5") = none ∧
      (@cleanHandler Unit parseCsv (some (chars "a,b\n1,2\n3,4,5"))
          ⟨⟨[chars "a"], [[chars "1"]]⟩, some (), some (chars "a,b\n1,2"), none⟩).1.cleaned_data ≠
        some (chars "a,b\n1,2") := by
  exact ⟨by decide, by decide⟩

/-- C1 (amended): when the cleaning step obtains a (truthy) response text that
fails to parse as CSV, the failure is reported as a user-visible message and
the loaded table, the stored analysis and the stored cleaned table keep their
prior values — but the stored cleaned CSV text is overwritten with the new
unparsable text, because the handler stores the text before parsing it. -/
theorem clean_failure_state (A : Type) (readCsv : List Char → Option Table)
    (txt : List Char) (st : AppState A) (htxt : txt ≠ []) (hfail : readCsv txt = none) :
    (cleanHandler readCsv (some txt) st).1.df = st.df ∧
      (cleanHandler readCsv (some txt) st).1.analysis = st.analysis ∧
      (cleanHandler readCsv (some txt) st).1.cleaned_df = st.cleaned_df ∧
      (cleanHandler readCsv (some txt) st).1.cleaned_data = some txt ∧
      (cleanHandler readCsv (some txt) st).2 = ["Error parsing cleaned data"] := by
  simp [cleanHandler, if_neg htxt, hfail]

/-- Witness for the amended C1 theorem at a concrete failing input (a ragged
later row, on which `pd.read_csv` raises `ParserError`). -/
theorem clean_failure_state_witness :
    (chars "x,y\n1,2\n3,4,5" ≠ []) ∧ parseCsv (chars "x,y\n1,2\n3,4,5") = none ∧
      (@cleanHandler Unit parseCsv (some (chars "x,y\n1,2\n3,4,5"))
          ⟨⟨[chars "x"], [[chars "9"]]⟩, some (), some (chars "old"), none⟩).1.cleaned_data =
        some (chars "x,y\n1,2\n3,4,5") :=
  ⟨by decide, by decide,
    (clean_failure_state Unit parseCsv (chars "x,y\n1,2\n3,4,5")
      ⟨⟨[chars "x"], [[chars "9"]]⟩, some (), some (chars "old"), none⟩
      (by decide) (by decide)).2.2.2.1⟩

/-- C2 counterexample: a successfully parsed analysis object that lacks the
`summary` field makes the display block raise a `KeyError` (the code indexes
`analysis['summary']` directly), contradicting the claim that such a display
does not raise. -/
theorem display_missing_field_cex :
    displayAnalysis [("severity", JVal.str "low")] = Except.error "KeyError: summary" := rfl

theorem lookup_append_single {k k0 : String} {v0 : JVal} (a : List (String × JVal))
    (hk : k ≠ k0) : (a ++ [(k0, v0)]).lookup k = a.lookup k := by
  induction a with
  | nil =>
    have hbeq : (k == k0) = false := by simp [hk]
    simp [List.lookup, hbeq]
  | cons p rest ih =>
    rcases p with ⟨k1, v1⟩
    by_cases h1 : k = k1
    · subst h1; simp [List.lookup]
    · have hbeq : (k == k1) = false := by simp [h1]
      simp only [List.cons_append, List.lookup, hbeq]
      exact ih

theorem lookup_append_self {k0 : String} {v0 : JVal} (a : List (String × JVal))
    (hnone : a.lookup k0 = none) : (a ++ [(k0, v0)]).lookup k0 = some v0 := by
  induction a with
  | nil => simp [List.lookup]
  | cons p rest ih =>
    rcases p with ⟨k1, v1⟩
    by_cases h1 : k0 = k1
    · subst h1; simp [List.lookup] at hnone
    · have hbeq : (k0 == k1) = false := by simp [h1]
      simp only [List.lookup, hbeq] at hnone
      simp only [List.cons_append, List.lookup, hbeq]
      exact ih hnone

/-- C2 (amended): the display block reads only `severity` through `.get` with
default `medium`; `summary`, `issues` and `recommendations` are indexed
directly, so with a benign severity a missing `summary` raises
`KeyError: summary`, with `summary` present a missing `issues` raises
`KeyError: issues`, with `summary` present and `issues` present and iterable
a missing `recommendations` raises `KeyError: recommendations`; an object
carrying all three fields with iterable `issues`/`recommendations` displays
without raising, and an absent `severity` behaves exactly as if `severity`
were `medium`. -/
theorem display_field_access (a : List (String × JVal))
    (hsev : hashable ((a.lookup "severity").getD (JVal.str "medium")) = true) :
    (a.lookup "summary" = none → displayAnalysis a = .error "KeyError: summary") ∧
      (∀ s, a.lookup "summary" = some s → a.lookup "issues" = none →
        displayAnalysis a = .error "KeyError: issues") ∧
      (∀ s i li, a.lookup "summary" = some s → a.lookup "issues" = some i →
        pyIterate i = .ok li → a.lookup "recommendations" = none →
        displayAnalysis a = .error "KeyError: recommendations") ∧
      (∀ s i r, a.lookup "summary" = some s → a.lookup "issues" = some i →
        a.lookup "recommendations" = some r →
        (∃ li, pyIterate i = .ok li) → (∃ lr, pyIterate r = .ok lr) →
        displayAnalysis a = .ok ()) ∧
      (a.lookup "severity" = none →
        displayAnalysis a = displayAnalysis (a ++ [("severity", JVal.str "medium")])) := by
  refine ⟨?_, ?_, ?_, ?_, ?_⟩
  · intro hsum
    simp only [displayAnalysis, pyGetItem, hsum, if_pos hsev]
    rfl
  · intro s hs hi
    simp only [displayAnalysis, pyGetItem, hs, hi, if_pos hsev]
    rfl
  · intro s i li hs hi hli hr
    simp only [displayAnalysis, pyGetItem, hs, hi, hli, hr, if_pos hsev]
    rfl
  · intro s i r hs hi hr hli hlr
    rcases hli with ⟨li, hli⟩
    rcases hlr with ⟨lr, hlr⟩
    simp only [displayAnalysis, pyGetItem, hs, hi, hr, hli, hlr, if_pos hsev]
  · intro hnone
    simp only [displayAnalysis, pyGetItem, hnone, lookup_append_self a hnone,
      lookup_append_single a (show ("summary" : String) ≠ "severity" by decide),
      lookup_append_single a (show ("issues" : String) ≠ "severity" by decide),
      lookup_append_single a (show ("recommendations" : String) ≠ "severity" by decide),
      Option.getD_none, Option.getD_some]

/-- Witness for the amended C2 theorem: a complete analysis object displays
without raising, and one with only a summary raises on the missing
`issues` field. -/
theorem display_field_access_witness :
    hashable (([(("summary" : String), JVal.str "ok"), ("issues", JVal.arr ["i1"]),
        ("recommendations", JVal.arr []), ("severity", JVal.str "high")].lookup
          "severity").getD (JVal.str "medium")) = true ∧
      displayAnalysis [(("summary" : String), JVal.str "ok"), ("issues", JVal.arr ["i1"]),
        ("recommendations", JVal.arr []), ("severity", JVal.str "high")] = .ok () ∧
      displayAnalysis [(("summary" : String), JVal.str "s")] = .error "KeyError: issues" :=
  ⟨rfl,
    (display_field_access
        [(("summary" : String), JVal.str "ok"), ("issues", JVal.arr ["i1"]),
          ("recommendations", JVal.arr []), ("severity", JVal.str "high")] rfl).2.2.2.1
      (JVal.str "ok") (JVal.arr ["i1"]) (JVal.arr [])
      rfl rfl rfl ⟨_, rfl⟩ ⟨_, rfl⟩,
    (display_field_access [(("summary" : String), JVal.str "s")] rfl).2.1
      (JVal.str "s") rfl rfl⟩

section Statistics

variable {α : Type} [DecidableEq α]

theorem row_null_count (r : List (Option α)) :
    (∑ j ∈ Finset.range r.length, if r[j]? = some (none : Option α) then 1 else 0) =
      r.countP (fun x => x.isNone) := by
  induction r with
  | nil => simp
  | cons x xs ih =>
    rw [List.length_cons, Finset.sum_range_succ']
    simp only [List.getElem?_cons_succ, List.getElem?_cons_zero]
    rw [ih, List.countP_cons]
    congr 1
    by_cases hx : x = none
    · subst hx; simp
    · simp [hx, Option.isNone_iff_eq_none]

theorem missingTotal_eq_flat (t : DFrame α) (h : rectangular t) :
    missingTotal t = flatNullCount t := by
  rcases t with ⟨cols, rows⟩
  simp only [rectangular] at h
  unfold missingTotal flatNullCount
  simp only at h ⊢
  induction rows with
  | nil => simp
  | cons r rs ih =>
    have hr : r.length = cols.length := (h r (by simp)).symm ▸ (h r (by simp))
    simp only [List.countP_cons, List.map_cons, List.sum_cons]
    rw [Finset.sum_add_distrib]
    rw [ih (fun x hx => h x (List.mem_cons_of_mem r hx))]
    have : (∑ j ∈ Finset.range cols.length, if decide (r[j]? = some (none : Option α)) = true
        then 1 else 0) = r.countP (fun x => x.isNone) := by
      rw [← h r (by simp)]
      rw [← row_null_count r]
      refine Finset.sum_congr rfl (fun j _ => ?_)
      simp
    rw [this]
    ring

/-- C6: the displayed missing-value percentage of a loaded (rectangular) table
equals the total number of null cells divided by rows times columns, as a
percentage, both exactly and after rounding to one decimal place. -/
theorem missing_pct_spec (t : DFrame α) (h : rectangular t) :
    missing_pct t = specMissingPct t ∧
      roundTo1 (missing_pct t) = roundTo1 (specMissingPct t) := by
  have hcore : missing_pct t = specMissingPct t := by
    unfold missing_pct specMissingPct
    rw [missingTotal_eq_flat t h]
  exact ⟨hcore, by rw [hcore]⟩

/-- Witness for C6 at a concrete two-by-two table with two null cells. -/
theorem missing_pct_spec_witness :
    rectangular (DFrame.mk (α := Nat) [chars "a", chars "b"]
        [[some 1, none], [none, some 2]]) ∧
      missing_pct (DFrame.mk (α := Nat) [chars "a", chars "b"]
          [[some 1, none], [none, some 2]]) =
        specMissingPct (DFrame.mk (α := Nat) [chars "a", chars "b"]
          [[some 1, none], [none, some 2]]) :=
  ⟨by decide,
    (missing_pct_spec (DFrame.mk (α := Nat) [chars "a", chars "b"]
      [[some 1, none], [none, some 2]]) (by decide)).1⟩

theorem dupFlags_count (rows : List (List (Option α))) :
    ∀ seen : List (List (Option α)),
      (dupFlags seen rows).count true =
        (List.range rows.length).countP
          (fun i => decide ((∃ s ∈ seen, rows[i]? = some s) ∨
            ∃ j ∈ List.range i, rows[j]? = rows[i]?)) := by
  induction rows with
  | nil => intro seen; simp [dupFlags]
  | cons r rs ih =>
    intro seen
    have hswap : ∀ i : Nat,
        ((∃ s ∈ seen, (r :: rs)[i + 1]? = some s) ∨
            ∃ j ∈ List.range (i + 1), (r :: rs)[j]? = (r :: rs)[i + 1]?) ↔
          ((∃ s ∈ r :: seen, rs[i]? = some s) ∨
            ∃ j ∈ List.range i, rs[j]? = rs[i]?) := by
      intro i
      simp only [List.getElem?_cons_succ]
      constructor
      · rintro (⟨s, hs, he⟩ | ⟨j, hj, he⟩)
        · exact Or.inl ⟨s, List.mem_cons_of_mem r hs, he⟩
        · cases j with
          | zero =>
            simp only [List.getElem?_cons_zero] at he
            exact Or.inl ⟨r, List.mem_cons_self r seen, he.symm⟩
          | succ k =>
            have hk : k ∈ List.range i := by
              simp only [List.mem_range] at hj ⊢
              omega
            simp only [List.getElem?_cons_succ] at he
            exact Or.inr ⟨k, hk, he⟩
      · rintro (⟨s, hs, he⟩ | ⟨j, hj, he⟩)
        · rcases List.mem_cons.mp hs with hs | hs
          · subst hs
            refine Or.inr ⟨0, ?_, ?_⟩
            · simp only [List.mem_range]
              omega
            · simp only [List.getElem?_cons_zero]
              exact he.symm
          · exact Or.inl ⟨s, hs, he⟩
        · refine Or.inr ⟨j + 1, ?_, ?_⟩
          · simp only [List.mem_range] at hj ⊢
            omega
          · simp only [List.getElem?_cons_succ]
            exact he
    have h0 : ((∃ s ∈ seen, (r :: rs)[0]? = some s) ∨
        ∃ j ∈ List.range 0, (r :: rs)[j]? = (r :: rs)[0]?) ↔ r ∈ seen := by
      simp
    simp only [dupFlags, List.count_cons, List.length_cons, List.range_succ_eq_map,
      List.countP_cons, List.countP_map]
    rw [ih (r :: seen)]
    have hcongr : ((List.range rs.length).countP
        (fun i => decide ((∃ s ∈ r :: seen, rs[i]? = some s) ∨
          ∃ j ∈ List.range i, rs[j]? = rs[i]?))) =
        ((List.range rs.length).countP
          ((fun i => decide ((∃ s ∈ seen, (r :: rs)[i]? = some s) ∨
            ∃ j ∈ List.range i, (r :: rs)[j]? = (r :: rs)[i]?)) ∘ Nat.succ)) := by
      refine List.countP_congr (fun i _ => ?_)
      simp only [Function.comp_apply, decide_eq_true_eq]
      exact (hswap i).symm
    rw [hcongr]
    congr 1
    by_cases hmem : r ∈ seen
    · simp [hmem, h0]
    · simp [hmem, h0]

/-- C7: the displayed duplicate count equals the number of row indices whose
row is an exact duplicate of some earlier row; the first occurrence of a
duplicated row is not counted. -/
theorem duplicates_spec (t : DFrame α) :
    duplicatedSum t =
      (List.range t.rows.length).countP
        (fun i => decide (∃ j ∈ List.range i, t.rows[j]? = t.rows[i]?)) := by
  unfold duplicatedSum
  rw [dupFlags_count t.rows []]
  refine List.countP_congr (fun i _ => ?_)
  simp only [decide_eq_true_eq]
  constructor
  · rintro (⟨s, hs, _⟩ | h)
    · simp at hs
    · exact h
  · exact Or.inr

/-- Witness for C7 at a concrete table: rows 0 and 2 are equal, so exactly one
row (index 2) counts as a duplicate. -/
theorem duplicates_spec_witness :
    duplicatedSum (DFrame.mk (α := Nat) [chars "a"] [[some 1], [some 2], [some 1]]) =
      (List.range 3).countP
        (fun i => decide (∃ j ∈ List.range i,
          ([[some 1], [some 2], [some (1 : Nat)]] : List (List (Option Nat)))[j]? =
            [[some 1], [some 2], [some 1]][i]?)) :=
  duplicates_spec (DFrame.mk (α := Nat) [chars "a"] [[some 1], [some 2], [some 1]])

end Statistics

section JsonFallback

/-- With no generic fence in the reply there is no labelled fence either, so
the fence-extraction step leaves the text unchanged. -/
theorem fenceChooseA_of_no_fence {s : List Char} (h : ¬ fence3 <:+: s) :
    fenceChooseA s = s := by
  have hj : ¬ fenceJson <:+: s := fun hc =>
    h (((show fence3 <+: fenceJson by decide).isInfix).trans hc)
  simp [fenceChooseA, hj, h]

/-- A successful `find`/`rfind` check certifies an explicit brace pair. -/
theorem bracePair_of_find {t : List Char} {i j : Nat} (hf : pyFind lbrace t = some i)
    (hr : pyRFind rbrace t = some j) (hij : i ≤ j) :
    ∃ pre mid post, t = pre ++ lbrace :: mid ++ rbrace :: post := by
  have h1 := (pyFind_eq_some hf).2
  have h2 := pyRFind_eq_some hr
  have hne : i ≠ j := by
    intro h
    rw [h, h2] at h1
    exact absurd (Option.some.inj h1) (by decide)
  have hij2 : i < j := lt_of_le_of_ne hij hne
  have hd1 : t = t.take i ++ lbrace :: t.drop (i + 1) := eq_take_cons_drop h1
  have hdrop : (t.drop (i + 1))[j - (i + 1)]? = some rbrace := by
    rw [List.getElem?_drop]
    have : i + 1 + (j - (i + 1)) = j := by omega
    rw [this, h2]
  have hd2 : t.drop (i + 1) =
      (t.drop (i + 1)).take (j - (i + 1)) ++
        rbrace :: (t.drop (i + 1)).drop (j - (i + 1) + 1) := eq_take_cons_drop hdrop
  refine ⟨t.take i, (t.drop (i + 1)).take (j - (i + 1)),
    (t.drop (i + 1)).drop (j - (i + 1) + 1), ?_⟩
  calc t = t.take i ++ lbrace :: t.drop (i + 1) := hd1
    _ = t.take i ++ lbrace :: ((t.drop (i + 1)).take (j - (i + 1)) ++
          rbrace :: (t.drop (i + 1)).drop (j - (i + 1) + 1)) := by rw [← hd2]
    _ = _ := by simp

/-- A brace pair in the stripped text is a brace pair in the original text. -/
theorem bracePair_strip {s : List Char}
    (h : ∃ pre mid post, pyStrip s = pre ++ lbrace :: mid ++ rbrace :: post) :
    ∃ pre mid post, s = pre ++ lbrace :: mid ++ rbrace :: post := by
  rcases pyStrip_decomposition s with ⟨w1, w2, hw⟩
  rcases h with ⟨pre, mid, post, hp⟩
  refine ⟨w1 ++ pre, mid, post ++ w2, ?_⟩
  rw [hw, hp]
  simp [List.append_assoc]

/-- A text without an opening brace has no brace pair. -/
theorem no_bracePair_of_not_mem {s : List Char} (h : lbrace ∉ s) :
    ¬ ∃ pre mid post, s = pre ++ lbrace :: mid ++ rbrace :: post := by
  rintro ⟨pre, mid, post, rfl⟩
  exact h (by simp)

/-- C4: in `analyze_data`, for an unfenced reply on which strict parsing
fails, the extraction succeeds exactly by parsing the substring from the
first `{` to the last `}`; and when the (stripped) reply admits no `{`/`}`
pair at all, extraction fails cleanly — a parse error is reported and `None`
is returned, with no partial result. -/
theorem json_fallback_spec :
    (∀ (J : Type) (jl : List Char → Option J) (s : List Char) (i j : Nat) (v : J),
        ¬ fence3 <:+: s →
        jl (pyStrip s) = none →
        pyFind lbrace (pyStrip s) = some i →
        pyRFind rbrace (pyStrip s) = some j →
        i ≤ j →
        jl (pySlice i (j + 1) (pyStrip s)) = some v →
        (parseAnalysisResponse jl s).1 = some v) ∧
      (∀ (J : Type) (jl : List Char → Option J) (s : List Char),
        ¬ fence3 <:+: s →
        jl (pyStrip s) = none →
        (¬ ∃ pre mid post, s = pre ++ lbrace :: mid ++ rbrace :: post) →
        parseAnalysisResponse jl s =
          (none, ["Could not parse AI response. Please try again."])) := by
  constructor
  · intro J jl s i j v hnf hfail hfind hrfind hij hok
    have hch : fenceChooseA s = s := fenceChooseA_of_no_fence hnf
    simp only [parseAnalysisResponse, hch, hfail, hfind, hrfind, if_pos hij, hok]
  · intro J jl s hnf hfail hnopair
    have hch : fenceChooseA s = s := fenceChooseA_of_no_fence hnf
    cases hfind : pyFind lbrace (pyStrip s) with
    | none => simp only [parseAnalysisResponse, hch, hfail, hfind]
    | some i =>
      cases hrfind : pyRFind rbrace (pyStrip s) with
      | none => simp only [parseAnalysisResponse, hch, hfail, hfind, hrfind]
      | some j =>
        have hij : ¬ i ≤ j := fun hle =>
          hnopair (bracePair_strip (bracePair_of_find hfind hrfind hle))
        simp only [parseAnalysisResponse, hch, hfail, hfind, hrfind, if_neg hij]

/-- Witness for C4: the fallback extracts `{Y}` from an unfenced reply, and a
braceless reply is rejected with the parse-error message. -/
theorem json_fallback_spec_witness :
    (parseAnalysisResponse
        (fun t => if t = chars "\x7bY\x7d" then some 7 else none) (chars "xx\x7bY\x7dz")).1 =
        some 7 ∧
      parseAnalysisResponse
          (fun t => if t = chars "\x7bY\x7d" then some 7 else none) (chars "no json here") =
        (none, ["Could not parse AI response. Please try again."]) :=
  ⟨json_fallback_spec.1 Nat
      (fun t => if t = chars "\x7bY\x7d" then some 7 else none) (chars "xx\x7bY\x7dz")
      2 4 7 (by decide) (by decide) (by decide) (by decide) (by decide) (by decide),
    json_fallback_spec.2 Nat
      (fun t => if t = chars "\x7bY\x7d" then some 7 else none) (chars "no json here")
      (by decide) (by decide) (no_bracePair_of_not_mem (by decide))⟩

end JsonFallback

section FenceExtraction

/-- The specification's reading of fenced extraction (spec 4.3 steps 1–2): the
text between the first occurrence of the opening marker `lbl` and the next
generic fence after it (the rest of the text when the marker never occurs or
no closing fence follows). -/
def specLabeledExtract (lbl s : List Char) : List Char :=
  match afterFirstOcc lbl s with
  | none => s
  | some r => beforeFirstOcc fence3 r

theorem afterFirstOcc_isSome_of_occurs {sep s : List Char} (hne : sep ≠ [])
    (h : sep <:+: s) : ∃ r, afterFirstOcc sep s = some r := by
  induction s with
  | nil => exact absurd (List.eq_nil_of_infix_nil h) hne
  | cons a rest ih =>
    by_cases hp : sep <+: a :: rest
    · exact ⟨rest.drop (sep.length - 1), by simp [afterFirstOcc, hp]⟩
    · have hrest : sep <:+: rest := by
        rcases List.infix_cons_iff.mp h with hc | hc
        · exact absurd hc hp
        · exact hc
      rcases ih hrest with ⟨r, hr⟩
      exact ⟨r, by simp [afterFirstOcc, hp, hr]⟩

theorem pySplit_getD0 (sep r : List Char) :
    (pySplit sep r).getD 0 [] = beforeFirstOcc sep r := by
  cases h : pySplit sep r with
  | nil => exact absurd h (pySplit_ne_nil sep r)
  | cons x xs =>
    have hh := pySplit_headD sep r
    rw [h] at hh
    simpa using hh

/-- The chunk at index 1 of a Python split, for a string containing the
separator exactly once, is the whole text after that occurrence cut at the
next separator occurrence (of a possibly different closing separator this is
stated for the concrete uses below). -/
theorem pySplit_getD1 {sep s r : List Char} (hne : sep ≠ []) (h : sep <:+: s)
    (hr : afterFirstOcc sep s = some r) :
    (pySplit sep s).getD 1 [] = (pySplit sep r).getD 0 [] := by
  rw [pySplit_first_occurrence hne h, hr]
  simp [List.getD]

/-- C3 counterexample: on a reply in which the JSON-labelled marker occurs a
second time with adjacent stray backticks, the code's two-split extraction
yields the text `ab` followed by two stray backticks, not the substring `ab`
between the first labelled fence and the next generic fence, so the
extraction is not literally "the substring between the first such fence
pair". -/
theorem json_fence_extraction_cex :
    fenceJson <:+: chars "```jsonab`````json" ∧
      fenceChooseA (chars "```jsonab`````json") ≠
        specLabeledExtract fenceJson (chars "```jsonab`````json") := by
  exact ⟨by decide, by decide⟩

/-- C3 (amended): the parser applies the attempts in the fixed order of the
specification, and the extracted text is the substring between the first fence
pair whenever the labelled marker occurs only once (for a labelled fence) and
always for a generic fence; the chosen text is stripped and strict parsing is
attempted before any brace-matching fallback (a strict-parse success is
returned unconditionally). -/
theorem json_fence_order :
    (∀ s : List Char, fenceJson <:+: s →
        ¬ fenceJson <:+: ((afterFirstOcc fenceJson s).getD []) →
        fenceChooseA s = specLabeledExtract fenceJson s) ∧
      (∀ s : List Char, ¬ fenceJson <:+: s → fence3 <:+: s →
        fenceChooseA s = specLabeledExtract fence3 s) ∧
      (∀ (J : Type) (jl : List Char → Option J) (s : List Char) (v : J),
        jl (pyStrip (fenceChooseA s)) = some v →
        parseAnalysisResponse jl s = (some v, [])) := by
  refine ⟨?_, ?_, ?_⟩
  · intro s h1 h2
    rcases afterFirstOcc_isSome_of_occurs (by decide) h1 with ⟨r, hr⟩
    rw [hr] at h2
    simp only [Option.getD_some] at h2
    simp only [fenceChooseA, if_pos h1, specLabeledExtract, hr]
    rw [pySplit_getD1 (by decide) h1 hr]
    rw [pySplit_getD0 fenceJson r]
    rw [beforeFirstOcc_no_occurrence h2]
    rw [pySplit_getD0 fence3 r]
  · intro s h1 h2
    rcases afterFirstOcc_isSome_of_occurs (by decide) h2 with ⟨r, hr⟩
    simp only [fenceChooseA, if_neg h1, if_pos h2, specLabeledExtract, hr]
    rw [pySplit_getD1 (by decide) h2 hr]
    rw [pySplit_getD0 fence3 r]
    rw [pySplit_getD0 fence3 (beforeFirstOcc fence3 r)]
    rw [beforeFirstOcc_no_occurrence (not_infix_beforeFirstOcc (by decide) r)]
  · intro J jl s v h
    simp only [parseAnalysisResponse, h]

/-- Witness for the amended C3 theorem on a reply with a single labelled
fence. -/
theorem json_fence_order_witness :
    fenceJson <:+: chars "```json\nPAYLOAD\n```x" ∧
      fenceChooseA (chars "```json\nPAYLOAD\n```x") =
        specLabeledExtract fenceJson (chars "```json\nPAYLOAD\n```x") :=
  ⟨by decide,
    json_fence_order.1 (chars "```json\nPAYLOAD\n```x") (by decide) (by decide)⟩

/-- C10 counterexample: on a reply in which the CSV-labelled marker occurs a
second time with adjacent stray backticks, the code's two-split extraction
yields the text `ab` followed by two stray backticks after stripping, not the
content `ab` between the first labelled marker and the next generic fence. -/
theorem csv_fence_extraction_cex :
    fenceCsv <:+: chars "```csvab`````csv" ∧
      stripCleanFences (chars "```csvab`````csv") ≠
        pyStrip (specLabeledExtract fenceCsv (chars "```csvab`````csv")) := by
  exact ⟨by decide, by decide⟩

/-- C10 (amended): without a CSV-labelled marker but with a generic fence,
`clean_data` removes exactly the lines whose stripped content starts with a
fence and keeps every other line unchanged (prose included), then strips
surrounding whitespace; with a CSV-labelled marker occurring once, the content
between the first marker and the next generic fence is extracted (and
stripped); with no fence at all the text is only stripped. -/
theorem clean_fence_stripping :
    (∀ (s : List Char) (L : List (List Char)), ¬ fenceCsv <:+: s → fence3 <:+: s →
        s = joinSep ['\n'] L → L ≠ [] → (∀ l ∈ L, '\n' ∉ l) →
        stripCleanFences s =
          pyStrip (joinSep ['\n'] (L.filter (fun l => !(decide (fence3 <+: pyStrip l)))))) ∧
      (∀ s : List Char, fenceCsv <:+: s →
        ¬ fenceCsv <:+: ((afterFirstOcc fenceCsv s).getD []) →
        stripCleanFences s = pyStrip (specLabeledExtract fenceCsv s)) ∧
      (∀ s : List Char, ¬ fenceCsv <:+: s → ¬ fence3 <:+: s →
        stripCleanFences s = pyStrip s) := by
  refine ⟨?_, ?_, ?_⟩
  · intro s L hcsv h3 hL hLne hnl
    simp only [stripCleanFences, if_neg hcsv, if_pos h3]
    rw [hL, pySplit_joinSep hLne hnl]
  · intro s h1 h2
    rcases afterFirstOcc_isSome_of_occurs (by decide) h1 with ⟨r, hr⟩
    rw [hr] at h2
    simp only [Option.getD_some] at h2
    simp only [stripCleanFences, if_pos h1, specLabeledExtract, hr]
    rw [pySplit_getD1 (by decide) h1 hr]
    rw [pySplit_getD0 fenceCsv r]
    rw [beforeFirstOcc_no_occurrence h2]
    rw [pySplit_getD0 fence3 r]
  · intro s h1 h2
    simp [stripCleanFences, h1, h2]

/-- Witness for the amended C10 theorem: a generic-fenced reply with prose
outside the fences keeps the prose and loses only the fence lines. -/
theorem clean_fence_stripping_witness :
    (¬ fenceCsv <:+: chars "ok\n```\na,b\n```") ∧
      stripCleanFences (chars "ok\n```\na,b\n```") =
        pyStrip (joinSep ['\n']
          (([chars "ok", chars "```", chars "a,b", chars "```"]).filter
            (fun l => !(decide (fence3 <+: pyStrip l))))) :=
  ⟨by decide,
    clean_fence_stripping.1 (chars "ok\n```\na,b\n```")
      [chars "ok", chars "```", chars "a,b", chars "```"]
      (by decide) (by decide) (by decide) (by decide) (by decide)⟩

end FenceExtraction

section CsvRoundTrip

theorem headD_append {a b : List Char} (d : Char) (ha : a ≠ []) :
    (a ++ b).headD d = a.headD d := by
  cases a with
  | nil => exact absurd rfl ha
  | cons x xs => simp

theorem getLastD_default {α : Type} {b : List α} (hb : b ≠ []) (d1 d2 : α) :
    b.getLastD d1 = b.getLastD d2 := by
  cases b with
  | nil => exact absurd rfl hb
  | cons x xs => rw [List.getLastD_cons, List.getLastD_cons]

theorem getLastD_append {α : Type} (a : List α) {b : List α} (d : α) (hb : b ≠ []) :
    (a ++ b).getLastD d = b.getLastD d := by
  induction a generalizing d with
  | nil => simp
  | cons x xs ih =>
    rw [List.cons_append, List.getLastD_cons]
    rcases xs with _ | ⟨y, ys⟩
    · simp only [List.nil_append]
      exact getLastD_default hb x d
    · rw [ih x]
      exact getLastD_default hb x d

theorem getLastD_mem {α : Type} : ∀ (l : List α) (d : α), l ≠ [] → l.getLastD d ∈ l := by
  intro l
  induction l with
  | nil => intro d h; exact absurd rfl h
  | cons a as ih =>
    intro d _
    rcases as with _ | ⟨b, bs⟩
    · simp
    · rw [List.getLastD_cons]
      exact List.mem_cons_of_mem a (ih a (by simp))

theorem joinSep_ne_nil {sep x : List Char} (xs : List (List Char)) (hx : x ≠ []) :
    joinSep sep (x :: xs) ≠ [] := by
  cases xs with
  | nil => exact hx
  | cons y ys =>
    simp only [joinSep, List.append_assoc]
    intro h
    rcases List.append_eq_nil.mp h with ⟨h1, -⟩
    exact hx h1

theorem joinSep_headD {sep x : List Char} (xs : List (List Char)) (d : Char) (hx : x ≠ []) :
    (joinSep sep (x :: xs)).headD d = x.headD d := by
  cases xs with
  | nil => rfl
  | cons y ys =>
    simp only [joinSep, List.append_assoc]
    exact headD_append d hx

theorem joinSep_getLastD {sep : List Char} :
    ∀ (L : List (List Char)) (d : Char), L ≠ [] → (∀ l ∈ L, l ≠ []) →
      (joinSep sep L).getLastD d = (L.getLastD []).getLastD d := by
  intro L
  induction L with
  | nil => intro d h _; exact absurd rfl h
  | cons x xs ih =>
    intro d _ hall
    cases xs with
    | nil => simp [joinSep, List.getLastD_cons]
    | cons y ys =>
      have hy : y ≠ [] := hall y (by simp)
      have hJ : joinSep sep (y :: ys) ≠ [] := joinSep_ne_nil ys hy
      have hsJ : sep ++ joinSep sep (y :: ys) ≠ [] := by
        intro hcon
        exact hJ (List.append_eq_nil.mp hcon).2
      simp only [joinSep, List.append_assoc]
      rw [getLastD_append x d hsJ, getLastD_append sep d hJ]
      rw [ih d (by simp) (fun l hl => hall l (List.mem_cons_of_mem x hl))]
      conv_rhs => rw [List.getLastD_cons]
      congr 1

/-- Well-formed CSV field: non-empty, free of the separator characters,
carriage returns and backticks, with non-whitespace ends. -/
def fieldOk (f : List Char) : Prop :=
  f ≠ [] ∧ (∀ c ∈ f, c ≠ ',' ∧ c ≠ '\n' ∧ c ≠ '\r' ∧ c ≠ btick) ∧ goodEnds f

/-- Well-formed table: at least one column, well-formed fields throughout, and
exactly one field per column in every row. -/
def tableOk (t : Table) : Prop :=
  t.cols ≠ [] ∧ (∀ f ∈ t.cols, fieldOk f) ∧
    ∀ r ∈ t.rows, r.length = t.cols.length ∧ ∀ f ∈ r, fieldOk f

instance (t : Table) : Decidable (tableOk t) := by
  unfold tableOk fieldOk goodEnds
  infer_instance

theorem csvLine_ok {r : List (List Char)} (hne : r ≠ []) (hf : ∀ f ∈ r, fieldOk f) :
    pySplit [','] (csvLine r) = r ∧ csvLine r ≠ [] ∧ '\n' ∉ csvLine r ∧
      btick ∉ csvLine r ∧ goodEnds (csvLine r) := by
  have hcomma : ∀ f ∈ r, ',' ∉ f := fun f hfm hc => ((hf f hfm).2.1 ',' hc).1 rfl
  refine ⟨pySplit_joinSep hne hcomma, ?_, ?_, ?_, ?_⟩
  · cases r with
    | nil => exact absurd rfl hne
    | cons f fs => exact joinSep_ne_nil fs (hf f (by simp)).1
  · exact not_mem_joinSep (by decide)
      (fun f hfm hc => ((hf f hfm).2.1 '\n' hc).2.1 rfl)
  · exact not_mem_joinSep (by decide)
      (fun f hfm hc => ((hf f hfm).2.1 btick hc).2.2.2 rfl)
  · cases r with
    | nil => exact absurd rfl hne
    | cons f fs =>
      constructor
      · rw [show csvLine (f :: fs) = joinSep [','] (f :: fs) from rfl]
        rw [joinSep_headD fs ',' (hf f (by simp)).1]
        exact (hf f (by simp)).2.2.1
      · rw [show csvLine (f :: fs) = joinSep [','] (f :: fs) from rfl]
        rw [joinSep_getLastD (f :: fs) ',' (by simp) (fun l hl => (hf l hl).1)]
        have hmem : (f :: fs).getLastD [] ∈ f :: fs := getLastD_mem (f :: fs) [] (by simp)
        exact (hf _ hmem).2.2.2

/-- Per-line consequences of table well-formedness for the serialized lines. -/
theorem tableLines_facts (t : Table) (h : tableOk t) :
    (∀ l ∈ csvLine t.cols :: t.rows.map csvLine,
        l ≠ [] ∧ '\n' ∉ l ∧ btick ∉ l ∧ goodEnds l) ∧
      csvOfTable t ≠ [] ∧ btick ∉ csvOfTable t ∧ goodEnds (csvOfTable t) := by
  rcases h with ⟨hcne, hcf, hrows⟩
  have hline : ∀ l ∈ csvLine t.cols :: t.rows.map csvLine,
      l ≠ [] ∧ '\n' ∉ l ∧ btick ∉ l ∧ goodEnds l := by
    intro l hl
    rcases List.mem_cons.mp hl with hl | hl
    · subst hl
      obtain ⟨-, h2, h3, h4, h5⟩ := csvLine_ok hcne hcf
      exact ⟨h2, h3, h4, h5⟩
    · rcases List.mem_map.mp hl with ⟨r, hr, hrl⟩
      subst hrl
      have hrne : r ≠ [] := by
        intro hcon
        have := (hrows r hr).1
        rw [hcon] at this
        simp at this
        exact hcne (List.eq_nil_of_length_eq_zero this.symm)
      obtain ⟨-, h2, h3, h4, h5⟩ := csvLine_ok hrne (hrows r hr).2
      exact ⟨h2, h3, h4, h5⟩
  refine ⟨hline, ?_, ?_, ?_⟩
  · exact joinSep_ne_nil _ (hline _ (by simp)).1
  · refine not_mem_joinSep (by decide) (fun l hl => (hline l hl).2.2.1)
  · constructor
    · rw [show csvOfTable t = joinSep ['\n'] (csvLine t.cols :: t.rows.map csvLine) from rfl]
      rw [joinSep_headD _ ',' (hline _ (by simp)).1]
      exact (hline _ (by simp)).2.2.2.1
    · rw [show csvOfTable t = joinSep ['\n'] (csvLine t.cols :: t.rows.map csvLine) from rfl]
      rw [joinSep_getLastD _ ',' (by simp) (fun l hl => (hline l hl).1)]
      have hmem : (csvLine t.cols :: t.rows.map csvLine).getLastD [] ∈
          csvLine t.cols :: t.rows.map csvLine := getLastD_mem _ [] (by simp)
      exact (hline _ hmem).2.2.2.2

/-- The CSV round trip: parsing the serialization of a well-formed table
recovers the table. -/
theorem parseCsv_csvOfTable (t : Table) (h : tableOk t) :
    parseCsv (csvOfTable t) = some t := by
  obtain ⟨hline, hsne, -, -⟩ := tableLines_facts t h
  rcases h with ⟨hcne, hcf, hrows⟩
  have hsplit : pySplit ['\n'] (csvOfTable t) = csvLine t.cols :: t.rows.map csvLine := by
    rw [show csvOfTable t = joinSep ['\n'] (csvLine t.cols :: t.rows.map csvLine) from rfl]
    exact pySplit_joinSep (by simp) (fun l hl => (hline l hl).2.1)
  have hfilter : (csvLine t.cols :: t.rows.map csvLine).filter (fun l => !l.isEmpty) =
      csvLine t.cols :: t.rows.map csvLine := by
    rw [List.filter_eq_self]
    intro l hl
    simp [List.isEmpty_iff, (hline l hl).1]
  have hheader : pySplit [','] (csvLine t.cols) = t.cols :=
    (csvLine_ok hcne hcf).1
  have hrowsplit : (t.rows.map csvLine).map (fun l => pySplit [','] l) = t.rows := by
    rw [List.map_map]
    have : ∀ r ∈ t.rows, (fun l => pySplit [','] l) (csvLine r) = r := by
      intro r hr
      have hrne : r ≠ [] := by
        intro hcon
        have := (hrows r hr).1
        rw [hcon] at this
        simp at this
        exact hcne (List.eq_nil_of_length_eq_zero this.symm)
      exact (csvLine_ok hrne (hrows r hr).2).1
    calc t.rows.map ((fun l => pySplit [','] l) ∘ csvLine)
        = t.rows.map id := List.map_congr_left (fun r hr => this r hr)
      _ = t.rows := List.map_id t.rows
  have hall : (((t.rows.map csvLine).map (fun l => pySplit [','] l)).all
      (fun r => r.length == (pySplit [','] (csvLine t.cols)).length)) = true := by
    rw [hrowsplit, hheader]
    rw [List.all_eq_true]
    intro r hr
    exact beq_iff_eq.mpr (hrows r hr).1
  unfold parseCsv
  rw [if_neg hsne, hsplit, hfilter]
  simp only [hall, if_pos]
  rw [hheader, hrowsplit]

end CsvRoundTrip

section CleanWrap

theorem infix_append_of_head_not_mem_of_eq {sep xs t : List Char} {c : Char} {sp : List Char}
    (hsep : sep = c :: sp) (h : c ∉ xs) : (sep <:+: xs ++ t) ↔ sep <:+: t := by
  subst hsep
  exact infix_append_of_head_not_mem h

theorem beforeFirstOcc_append_of_eq {sep xs ys : List Char} {c : Char} {sp : List Char}
    (hsep : sep = c :: sp) (h : c ∉ xs) : beforeFirstOcc sep (xs ++ sep ++ ys) = xs := by
  subst hsep
  exact beforeFirstOcc_append h

theorem pySplit_sep_append {sep : List Char} (hne : sep ≠ []) (ys : List Char) :
    pySplit sep (sep ++ ys) = [] :: pySplit sep ys := by
  rw [pySplit_first_occurrence hne ⟨[], ys, by simp⟩]
  rw [beforeFirstOcc_at_match hne (List.prefix_append sep ys)]
  rw [afterFirstOcc_at_match hne (List.prefix_append sep ys)]
  rw [List.drop_left]
  rfl

theorem not_fence3_prefix_of_not_mem {l : List Char} (h : btick ∉ l) : ¬ fence3 <+: l := by
  intro hp
  have h3 : fence3 = btick :: btick :: btick :: [] := by decide
  rw [h3] at hp
  cases l with
  | nil => simp at hp
  | cons a rest =>
    rcases List.cons_prefix_cons.mp hp with ⟨he, -⟩
    apply h
    rw [he]
    exact List.mem_cons_self a rest

/-- A CSV-labelled marker cannot occur in a generic-fenced wrap of a
backtick-free body. -/
theorem not_fenceCsv_infix_wrap {body : List Char} (hb : btick ∉ body) :
    ¬ fenceCsv <:+: (fence3 ++ '\n' :: body ++ '\n' :: fence3) := by
  have hxs : btick ∉ ('\n' :: body ++ ['\n'] : List Char) := by
    intro hc
    rcases List.mem_cons.mp hc with hc | hc
    · exact absurd hc (by decide)
    · rcases List.mem_append.mp hc with hc | hc
      · exact hb hc
      · exact absurd (List.mem_singleton.mp hc) (by decide)
  have hshape : ('\n' :: body ++ '\n' :: fence3 : List Char) =
      ('\n' :: body ++ ['\n']) ++ fence3 := by simp
  have h3 : fence3 = btick :: btick :: btick :: ([] : List Char) := by decide
  rw [h3]
  simp only [List.cons_append, List.nil_append]
  intro hc
  rcases List.infix_cons_iff.mp hc with hp | hc
  · have hcsv : fenceCsv = btick :: btick :: btick :: 'c' :: 's' :: 'v' :: ([] : List Char) := by
      decide
    rw [hcsv] at hp
    rcases List.cons_prefix_cons.mp hp with ⟨-, hp⟩
    rcases List.cons_prefix_cons.mp hp with ⟨-, hp⟩
    rcases List.cons_prefix_cons.mp hp with ⟨-, hp⟩
    rcases List.cons_prefix_cons.mp hp with ⟨he, -⟩
    exact absurd he (by decide)
  rcases List.infix_cons_iff.mp hc with hp | hc
  · have hcsv : fenceCsv = btick :: btick :: btick :: 'c' :: 's' :: 'v' :: ([] : List Char) := by
      decide
    rw [hcsv] at hp
    rcases List.cons_prefix_cons.mp hp with ⟨-, hp⟩
    rcases List.cons_prefix_cons.mp hp with ⟨-, hp⟩
    rcases List.cons_prefix_cons.mp hp with ⟨he, -⟩
    exact absurd he (by decide)
  rcases List.infix_cons_iff.mp hc with hp | hc
  · have hcsv : fenceCsv = btick :: btick :: btick :: 'c' :: 's' :: 'v' :: ([] : List Char) := by
      decide
    rw [hcsv] at hp
    rcases List.cons_prefix_cons.mp hp with ⟨-, hp⟩
    rcases List.cons_prefix_cons.mp hp with ⟨he, -⟩
    exact absurd he (by decide)
  · rw [show ('\n' :: (body ++ ['\n', btick, btick, btick]) : List Char) =
        ('\n' :: body ++ ['\n']) ++ [btick, btick, btick]
      from by simp] at hc
    rw [infix_append_of_head_not_mem_of_eq
      (show fenceCsv = btick :: chars "``csv" from by decide) hxs] at hc
    exact absurd hc (by decide)

/-- Unwrapping a CSV-labelled fenced block around a clean body. -/
theorem stripCleanFences_labeled {body : List Char} (hb : btick ∉ body) (hne : body ≠ [])
    (hge : goodEnds body) :
    stripCleanFences (fenceCsv ++ '\n' :: body ++ '\n' :: fence3) = body := by
  have hxs : btick ∉ ('\n' :: body ++ ['\n'] : List Char) := by
    intro hc
    rcases List.mem_cons.mp hc with hc | hc
    · exact absurd hc (by decide)
    · rcases List.mem_append.mp hc with hc | hc
      · exact hb hc
      · exact absurd (List.mem_singleton.mp hc) (by decide)
  have hshape : ('\n' :: body ++ '\n' :: fence3 : List Char) =
      ('\n' :: body ++ ['\n']) ++ fence3 := by simp
  have hmain : fenceCsv <:+: fenceCsv ++ '\n' :: body ++ '\n' :: fence3 :=
    ⟨[], '\n' :: body ++ '\n' :: fence3, by simp⟩
  have hnotail : ¬ fenceCsv <:+: ('\n' :: body ++ '\n' :: fence3 : List Char) := by
    rw [hshape]
    rw [infix_append_of_head_not_mem_of_eq
      (show fenceCsv = btick :: chars "``csv" from by decide) hxs]
    exact (by decide : ¬ fenceCsv <:+: fence3)
  have hsplit1 : pySplit fenceCsv (fenceCsv ++ '\n' :: body ++ '\n' :: fence3) =
      [] :: pySplit fenceCsv ('\n' :: body ++ '\n' :: fence3) :=
    pySplit_sep_append (by decide) _
  have hsplit2 : pySplit fenceCsv ('\n' :: body ++ '\n' :: fence3) =
      ['\n' :: body ++ '\n' :: fence3] := pySplit_no_occurrence hnotail
  unfold stripCleanFences
  rw [if_pos hmain, hsplit1, hsplit2]
  simp only [List.getD_cons_succ, List.getD_cons_zero]
  rw [pySplit_getD0]
  rw [show ('\n' :: body ++ '\n' :: fence3 : List Char) =
    ('\n' :: body ++ ['\n']) ++ fence3 ++ [] from by simp]
  rw [beforeFirstOcc_append_of_eq (show fence3 = btick :: chars "``" from by decide) hxs]
  exact pyStrip_pad (by decide) (by decide) hne hge

/-- Unwrapping a generic fenced block around a clean line-structured body. -/
theorem stripCleanFences_generic {body : List Char} {L : List (List Char)}
    (hbody : body = joinSep ['\n'] L) (hLne : L ≠ [])
    (hlineok : ∀ l ∈ L, l ≠ [] ∧ '\n' ∉ l ∧ btick ∉ l ∧ goodEnds l)
    (hne : body ≠ []) (hge : goodEnds body) :
    stripCleanFences (fence3 ++ '\n' :: body ++ '\n' :: fence3) = body := by
  have hb : btick ∉ body := by
    rw [hbody]
    exact not_mem_joinSep (by decide) (fun l hl => (hlineok l hl).2.2.1)
  have hcsv := not_fenceCsv_infix_wrap hb
  have h3 : fence3 <:+: fence3 ++ '\n' :: body ++ '\n' :: fence3 :=
    ⟨[], '\n' :: body ++ '\n' :: fence3, by simp⟩
  have hlines : (fence3 ++ '\n' :: body ++ '\n' :: fence3 : List Char) =
      joinSep ['\n'] (fence3 :: (L ++ [fence3])) := by
    have h1 : joinSep ['\n'] (fence3 :: (L ++ [fence3])) =
        fence3 ++ ['\n'] ++ joinSep ['\n'] (L ++ [fence3]) := by
      cases L with
      | nil => exact absurd rfl hLne
      | cons x xs => simp [joinSep, List.cons_append]
    have h2 : joinSep ['\n'] (L ++ [fence3]) = body ++ ['\n'] ++ fence3 := by
      rw [joinSep_append ['\n'] L [fence3] hLne (by simp), ← hbody]
      simp [joinSep]
    rw [h1, h2]
    simp
  have hallnl : ∀ l ∈ fence3 :: (L ++ [fence3]), '\n' ∉ l := by
    intro l hl
    rcases List.mem_cons.mp hl with hl | hl
    · subst hl; decide
    · rcases List.mem_append.mp hl with hl | hl
      · exact (hlineok l hl).2.1
      · rw [List.mem_singleton.mp hl]; decide
  have hfilter :
      (fence3 :: (L ++ [fence3])).filter (fun l => !(decide (fence3 <+: pyStrip l))) = L := by
    have hdrop : (fun l => !(decide (fence3 <+: pyStrip l))) fence3 = false := by decide
    have hkeep : ∀ l ∈ L, (fun l => !(decide (fence3 <+: pyStrip l))) l = true := by
      intro l hl
      have hps : pyStrip l = l := pyStrip_eq_self (hlineok l hl).2.2.2
      simp only [hps, Bool.not_eq_true']
      exact decide_eq_false (not_fence3_prefix_of_not_mem (hlineok l hl).2.2.1)
    rw [List.filter_cons_of_neg (by simp [hdrop])]
    rw [List.filter_append]
    rw [List.filter_eq_self.mpr hkeep]
    rw [List.filter_cons_of_neg (by simp [hdrop])]
    simp
  unfold stripCleanFences
  rw [if_neg hcsv, if_pos h3, hlines]
  rw [pySplit_joinSep (by simp) hallnl]
  rw [hfilter, ← hbody]
  exact pyStrip_eq_self hge

/-- C5: a cleaning reply consisting of the CSV serialization of a well-formed
table with the original table's column count, wrapped in a labelled or a
generic fenced block, strips back to CSV text that parses into a table with
the same number of columns as the original. -/
theorem clean_roundtrip_cols (t orig : Table) (hok : tableOk t)
    (hcols : t.cols.length = orig.cols.length) (resp : List Char)
    (hresp : resp = fenceCsv ++ '\n' :: csvOfTable t ++ '\n' :: fence3 ∨
      resp = fence3 ++ '\n' :: csvOfTable t ++ '\n' :: fence3) :
    ∃ u, parseCsv (stripCleanFences resp) = some u ∧ u.cols.length = orig.cols.length := by
  obtain ⟨hline, hsne, hsb, hsge⟩ := tableLines_facts t hok
  have hstrip : stripCleanFences resp = csvOfTable t := by
    rcases hresp with h | h <;> rw [h]
    · exact stripCleanFences_labeled hsb hsne hsge
    · exact stripCleanFences_generic rfl (by simp) hline hsne hsge
  refine ⟨t, ?_, hcols⟩
  rw [hstrip, parseCsv_csvOfTable t hok]

/-- Witness for C5: a concrete two-column table wrapped in a labelled fence
parses back with two columns. -/
theorem clean_roundtrip_cols_witness :
    tableOk ⟨[chars "a", chars "b"], [[chars "1", chars "2"]]⟩ ∧
      ∃ u, parseCsv (stripCleanFences (fenceCsv ++ '\n' ::
          csvOfTable ⟨[chars "a", chars "b"], [[chars "1", chars "2"]]⟩ ++
            '\n' :: fence3)) = some u ∧
        u.cols.length = (Table.mk [chars "a", chars "b"] [[chars "1", chars "2"]]).cols.length :=
  ⟨by decide,
    clean_roundtrip_cols ⟨[chars "a", chars "b"], [[chars "1", chars "2"]]⟩
      ⟨[chars "a", chars "b"], [[chars "1", chars "2"]]⟩ (by decide) rfl
      (fenceCsv ++ '\n' ::
        csvOfTable ⟨[chars "a", chars "b"], [[chars "1", chars "2"]]⟩ ++ '\n' :: fence3)
      (Or.inl rfl)⟩

end CleanWrap

end DataClean
